import Mathlib

/-!
Verification of the `Eventful` mixin (event registry: `on` / `off` / `emit`),
the `@emits` reactive-property decorator, and the `Symbol.hasInstance`
capability check, as implemented in `src/Eventful.ts` and `src/emits.ts`.

The registry is embedded with an explicit heap of entry arrays so that the
JavaScript aliasing between the `Map`'s array values and the local `callbacks`
reference held by `emit` is modelled exactly: `off` splices an array in place,
and a running `emit` loop observes those splices through the shared reference,
while arrays created by `on` after a key deletion are fresh objects the running
loop never sees.
-/

namespace Eventful

/-- JavaScript values, as far as the registry observes them: identity of
functions, objects and symbols is modelled by a numeric id, so `===` is
decidable equality on this type. -/
inductive Val where
  | undef
  | nullV
  | boolV (b : Bool)
  | numV (n : Int)
  | strV (s : String)
  | fnV (id : Nat)
  | objV (id : Nat)
  | symV (id : Nat)
deriving DecidableEq, Repr

/-- `typeof v === 'function'`. -/
def Val.isFunction : Val → Bool
  | .fnV _ => true
  | _ => false

/-- A subscription entry `[callback, context]` as pushed by `on`. -/
abbrev Entry := Val × Val

/-- Registry state of one Eventful instance: `#eventMap` is either `null` or a
`Map` from event name to an array *reference*; `heap` gives each reference its
current array contents (arrays are mutated in place by `off`/`on`). -/
structure RegState where
  eventMap : Option (List (String × Nat))
  heap : List (List Entry)
deriving DecidableEq, Repr

/-- The state of a freshly constructed instance: `#eventMap = null`. -/
def freshState : RegState := ⟨none, []⟩

/-- `Map.prototype.get`: the map's keys are unique, lookup finds the entry. -/
def alistLookup : List (String × Nat) → String → Option Nat
  | [], _ => none
  | p :: rest, k => if p.1 = k then some p.2 else alistLookup rest k

/-- `Map.prototype.delete`: removes the entry for the key (keys are unique). -/
def alistErase : List (String × Nat) → String → List (String × Nat)
  | [], _ => []
  | p :: rest, k => if p.1 = k then rest else p :: alistErase rest k

/-- Read the array behind a reference (every reference the code ever stores is
in bounds, so the default is never observable). -/
def heapGet (heap : List (List Entry)) (r : Nat) : List Entry := heap.getD r []

/-- Overwrite the array behind a reference (in-place array mutation). -/
def heapSet (heap : List (List Entry)) (r : Nat) (arr : List Entry) :
    List (List Entry) := heap.set r arr

/-- `callbacks.findIndex(tuple => tuple[0] === callback && tuple[1] === context)`. -/
def findMatchIdx (cb ctx : Val) : List Entry → Option Nat
  | [] => none
  | t :: rest =>
    if t.1 = cb ∧ t.2 = ctx then some 0 else (findMatchIdx cb ctx rest).map (· + 1)

/-- `callbacks.splice(index, 1)`. -/
def spliceOne : List Entry → Nat → List Entry
  | [], _ => []
  | _ :: rest, 0 => rest
  | t :: rest, n + 1 => t :: spliceOne rest n

/-- Number of entries matching a `(callback, context)` pair by identity. -/
def countMatch (cb ctx : Val) (l : List Entry) : Nat :=
  l.countP (fun t => decide (t.1 = cb ∧ t.2 = ctx))

/-- Errors thrown by registry operations. -/
inductive Err where
  | invalidArgument
deriving DecidableEq, Repr

/-- `Eventful#on`.  Returns the thrown error (if any) together with the state
of the instance when the call completes or the exception escapes; a throw
happens before any mutation, so the input state is returned unchanged then. -/
def onE (st : RegState) (name : String) (cb ctx : Val) : Option Err × RegState :=
  if Val.isFunction cb = false then (some Err.invalidArgument, st)
  else
    match st.eventMap with
    | none =>
      -- eventMap = new Map(); get(name) is undefined; set(name, []); push
      (none, ⟨some [(name, st.heap.length)], st.heap ++ [[(cb, ctx)]]⟩)
    | some m =>
      match alistLookup m name with
      | none =>
        (none, ⟨some (m ++ [(name, st.heap.length)]), st.heap ++ [[(cb, ctx)]]⟩)
      | some r =>
        (none, ⟨some m, heapSet st.heap r (heapGet st.heap r ++ [(cb, ctx)])⟩)

/-- `Eventful#off`.  No code path of `off` can throw, so it is a plain state
transformer. -/
def off (st : RegState) (name : String) (cb ctx : Val) : RegState :=
  match st.eventMap with
  | none => st
  | some m =>
    match alistLookup m name with
    | none => st
    | some r =>
      let arr := heapGet st.heap r
      match findMatchIdx cb ctx arr with
      | none => st
      | some i =>
        let arr' := spliceOne arr i
        let m' := if arr'.isEmpty then alistErase m name else m
        ⟨if m'.isEmpty then none else some m', heapSet st.heap r arr'⟩

/-- What a listener does to the instance when invoked: a sequence of `on`/`off`
calls performed during its invocation. -/
inductive RegOp where
  | onOp (name : String) (cb ctx : Val)
  | offOp (name : String) (cb ctx : Val)

/-- An environment giving each function id its behaviour when invoked. -/
def Env := Nat → List RegOp

/-- The environment in which every listener is pure (performs no registry
mutation when invoked). -/
def envEmpty : Env := fun _ => []

/-- Behaviour of a callback value: only function values have behaviour. -/
def cbOps (env : Env) : Val → List RegOp
  | .fnV id => env id
  | _ => []

/-- Run one listener-performed registry operation. -/
def runOp (st : RegState) : RegOp → Option Err × RegState
  | .onOp n c x => onE st n c x
  | .offOp n c x => (none, off st n c x)

/-- Run a listener's operations in order; an exception aborts the rest but the
mutations already made persist. -/
def runOps (st : RegState) : List RegOp → Option Err × RegState
  | [] => (none, st)
  | op :: rest =>
    match runOp st op with
    | (some e, st') => (some e, st')
    | (none, st') => runOps st' rest

/-- Failure modes of `emit`: the loop reading past the end of the (spliced)
array and then evaluating `tuple[0]` throws a TypeError; an exception escaping
a listener propagates to the `emit` caller. -/
inductive EmitErr where
  | iterFault
  | listenerThrew
deriving DecidableEq, Repr

/-- The record of listener invocations: `(callback, receiver, argument)` for
each `callback.call(context, data)` performed. -/
abbrev Log := List (Val × Val × Val)

/-- The `for (let i = 0, len = callbacks.length; i < len; i += 1)` loop of
`emit`: `len` is fixed at entry, `callbacks[i]` re-reads the live array behind
reference `r` each iteration. `rem` counts the remaining iterations
(`len - i`), so the recursion is structural. -/
def emitLoop (env : Env) (r : Nat) (d : Val) :
    Nat → Nat → RegState → Log → Option EmitErr × RegState × Log
  | 0, _, st, log => (none, st, log)
  | rem + 1, i, st, log =>
    match (heapGet st.heap r)[i]? with
    | none => (some EmitErr.iterFault, st, log)
    | some t =>
      match runOps st (cbOps env t.1) with
      | (some _, st') => (some EmitErr.listenerThrew, st', log ++ [(t.1, t.2, d)])
      | (none, st') => emitLoop env r d rem (i + 1) st' (log ++ [(t.1, t.2, d)])

/-- `Eventful#emit`: resolves the array reference for the event name once, then
runs the loop with the length cached at entry. -/
def emit (env : Env) (st : RegState) (name : String) (d : Val) :
    Option EmitErr × RegState × Log :=
  match st.eventMap with
  | none => (none, st, [])
  | some m =>
    match alistLookup m name with
    | none => (none, st, [])
    | some r => emitLoop env r d (heapGet st.heap r).length 0 st []

/-- The entries currently subscribed for an event name. -/
def entriesOf (st : RegState) (name : String) : List Entry :=
  match st.eventMap with
  | none => []
  | some m =>
    match alistLookup m name with
    | none => []
    | some r => heapGet st.heap r

/-- States reachable from a fresh instance by any interleaving of `on`, `off`
and `emit` calls (with listeners behaving according to `env`), including the
states left behind when a call throws. -/
inductive Reachable (env : Env) : RegState → Prop where
  | init : Reachable env freshState
  | stepOn (s : RegState) (n : String) (c x : Val) :
      Reachable env s → Reachable env (onE s n c x).2
  | stepOff (s : RegState) (n : String) (c x : Val) :
      Reachable env s → Reachable env (off s n c x)
  | stepEmit (s : RegState) (n : String) (d : Val) :
      Reachable env s → Reachable env (emit env s n d).2.1

end Eventful

namespace Eventful

/-- Register a whole list of `(callback id, context)` pairs for one event name,
in order, on top of a given state. -/
def onAll (st : RegState) (name : String) (pairs : List (Nat × Val)) : RegState :=
  pairs.foldl (fun s p => (onE s name (Val.fnV p.1) p.2).2) st

/-- All stored callbacks of an entry array are function values. -/
def entriesFn (l : List Entry) : Bool := l.all (fun t => Val.isFunction t.1)

/-- Every array ever allocated holds only function-valued callbacks. -/
def heapFn (heap : List (List Entry)) : Bool := heap.all entriesFn

/-- The map never holds two entries for the same event name. -/
def nodupKeys : List (String × Nat) → Bool
  | [] => true
  | p :: rest => (alistLookup rest p.1 == none) && nodupKeys rest

/-- Distinct event names reference distinct arrays. -/
def nodupRefs : List (String × Nat) → Bool
  | [] => true
  | p :: rest => !(rest.any (fun q => q.2 == p.2)) && nodupRefs rest

/-- Well-formedness of a present `#eventMap`: nonempty, unique keys, distinct
in-bounds references, and every referenced array nonempty. -/
def mapGood (heap : List (List Entry)) : Option (List (String × Nat)) → Bool
  | none => true
  | some m =>
    !m.isEmpty && nodupKeys m && nodupRefs m &&
      m.all (fun p => decide (p.2 < heap.length) && !(heapGet heap p.2).isEmpty)

/-- The registry invariant maintained by every reachable state. -/
def regGood (st : RegState) : Bool := heapFn st.heap && mapGood st.heap st.eventMap

/-- The listener environment of the self-unsubscribe scenario: function 0
unsubscribes itself from "foo" during its own invocation, function 1 is pure. -/
def envC1 : Env := fun id => if id = 0 then [RegOp.offOp "foo" (Val.fnV 0) Val.undef] else []

/-- Two listeners subscribed to "foo": function 0 (which self-unsubscribes when
invoked under `envC1`) followed by function 1. -/
def stC1 : RegState :=
  (onE (onE freshState "foo" (Val.fnV 0) Val.undef).2 "foo" (Val.fnV 1) Val.undef).2

end Eventful

namespace Emits

open Eventful (Val)

/-- Per-decoration state of the `@emits` accessor pair installed for a plain
writable field (src/emits.ts, `_emits`): `initialValueIsSet` is the single
closure variable shared by the getter and setter of the decorated property
(one per decoration, on the prototype — not one per instance); `slots` holds
each instance's hidden `this[vName]` slot; `pending` lists the deferred
emissions scheduled so far, in scheduling (microtask FIFO) order, each
recording the target instance, the event name and the payload the scheduled
`emitEvent` will pass (`this.emit(eventName, propName)`). -/
structure EmitsState where
  initialValueIsSet : Bool
  slots : List (Nat × Val)
  pending : List (Nat × String × String)
deriving DecidableEq, Repr

/-- State right after the decorator ran: no read or write has happened yet. -/
def emitsFresh : EmitsState := ⟨false, [], []⟩

/-- Write an instance's hidden slot (`this[vName] = v`). -/
def slotSet (slots : List (Nat × Val)) (inst : Nat) (v : Val) : List (Nat × Val) :=
  match slots with
  | [] => [(inst, v)]
  | p :: rest => if p.1 = inst then (inst, v) :: rest else p :: slotSet rest inst v

/-- Read an instance's hidden slot (`this[vName]`, `undefined` when never set). -/
def slotGet : List (Nat × Val) → Nat → Val
  | [], _ => Val.undef
  | p :: rest, inst => if p.1 = inst then p.2 else slotGet rest inst

/-- The installed getter for a plain writable field (src/emits.ts lines
99-106): on the first read while the shared flag is unset, set the flag,
store the declared initial value into this instance's slot and return it;
otherwise return this instance's slot. -/
def emitsGet (initialValue : Val) (inst : Nat) (s : EmitsState) : Val × EmitsState :=
  if s.initialValueIsSet = false then
    (initialValue, ⟨true, slotSet s.slots inst initialValue, s.pending⟩)
  else (slotGet s.slots inst, s)

/-- The installed setter for a plain writable field (src/emits.ts lines
119-123): mark the shared flag, store into this instance's slot, and schedule
one deferred emission `this.emit(eventName, propName)`. -/
def emitsSet (eventName propName : String) (inst : Nat) (v : Val) (s : EmitsState) :
    EmitsState :=
  ⟨true, slotSet s.slots inst v, s.pending ++ [(inst, eventName, propName)]⟩

end Emits

namespace HasInst

open Eventful (Val)

/-- Property keys as the `Symbol.hasInstance` check distinguishes them: the
unique private `isEventful` symbol versus ordinary string keys. -/
inductive JsKey where
  | symIsEventful
  | strKey (s : String)
deriving DecidableEq, Repr

/-- The own-property table of one object in a prototype chain. -/
abbrev PropTable := List (JsKey × Val)

/-- An object: its own properties plus its prototype chain, nearest first. -/
structure JsObj where
  own : PropTable
  protos : List PropTable

/-- An arbitrary JavaScript value: a primitive or an object. -/
inductive JsValue where
  | prim (v : Val)
  | obj (o : JsObj)

/-- JavaScript truthiness of a primitive value. -/
def truthyVal : Val → Bool
  | .undef => false
  | .nullV => false
  | .boolV b => b
  | .numV n => decide (n ≠ 0)
  | .strV s => decide (s ≠ "")
  | .fnV _ => true
  | .objV _ => true
  | .symV _ => true

/-- JavaScript truthiness: objects are always truthy. -/
def truthyJs : JsValue → Bool
  | .prim v => truthyVal v
  | .obj _ => true

/-- Own-property lookup in one table. -/
def tableLookup : PropTable → JsKey → Option Val
  | [], _ => none
  | p :: rest, k => if p.1 = k then some p.2 else tableLookup rest k

/-- First table of the chain that has the key wins. -/
def chainLookup : List PropTable → JsKey → Option Val
  | [], _ => none
  | t :: rest, k =>
    match tableLookup t k with
    | some v => some v
    | none => chainLookup rest k

/-- `o[k]`: walk own properties then the prototype chain; `undefined` if
absent everywhere. -/
def getProp (o : JsObj) (k : JsKey) : Val :=
  (chainLookup (o.own :: o.protos) k).getD Val.undef

/-- `x[k]` for an arbitrary value: property access on a primitive boxes it;
no box carries the private `isEventful` symbol (nor the plain string keys we
consider), so the lookup yields `undefined`. -/
def getPropJs (x : JsValue) (k : JsKey) : Val :=
  match x with
  | .prim _ => Val.undef
  | .obj o => getProp o k

/-- The `Symbol.hasInstance` implementation installed on `Eventful`
(src/Eventful.ts lines 153-159): `if (!obj) return false; if (obj[isEventful])
return true; return false`. -/
def eventfulHasInstance (x : JsValue) : Bool :=
  if !truthyJs x then false
  else if truthyVal (getPropJs x JsKey.symIsEventful) then true
  else false

/-- The value stored under the tag key: the `isEventful` symbol itself, which
is truthy. -/
def isEventfulSym : Val := Val.symV 0

/-- A table of ordinary string-keyed properties. -/
def strTable (l : List (String × Val)) : PropTable :=
  l.map (fun p => (JsKey.strKey p.1, p.2))

/-- The prototype created by the `Eventful(Base)` mixin: it carries
`Eventful.prototype[isEventful] = isEventful`. -/
def eventfulProtoTable : PropTable := [(JsKey.symIsEventful, isEventfulSym)]

/-- An instance of the mixin class or of any further subclass: its own
properties include the instance field `[isEventful] = isEventful` installed at
construction; its prototype chain passes through the (string-keyed) subclass
prototypes, then the mixin prototype carrying the tag, then the chain of the
chosen base class (e.g. `Array.prototype` and beyond). -/
def mkEventfulInstance (fields : List (String × Val))
    (subProtos : List (List (String × Val))) (baseChain : List PropTable) : JsObj :=
  ⟨(JsKey.symIsEventful, isEventfulSym) :: strTable fields,
    subProtos.map strTable ++ eventfulProtoTable :: baseChain⟩

/-- An unrelated plain object: only string-keyed own properties (possibly
named "on", "off", "emit", ...) and a string-keyed prototype chain. -/
def plainObj (fields : List (String × Val))
    (protoChain : List (List (String × Val))) : JsObj :=
  ⟨strTable fields, protoChain.map strTable⟩

end HasInst

namespace Eventful

/-- A pure listener performs no registry operation when invoked. -/
theorem cbOps_envEmpty (v : Val) : cbOps envEmpty v = [] := by
  cases v <;> rfl

/-- When every listener is pure, the emit loop leaves the state alone and logs
the remaining snapshot in order. -/
theorem emitLoop_pure (r : Nat) (d : Val) :
    ∀ (rem i : Nat) (st : RegState) (log : Log),
      (heapGet st.heap r).length = i + rem →
      emitLoop envEmpty r d rem i st log =
        (none, st, log ++ ((heapGet st.heap r).drop i).map (fun t => (t.1, t.2, d))) := by
  intro rem
  induction rem with
  | zero =>
    intro i st log hlen
    have hdrop : (heapGet st.heap r).drop i = [] := List.drop_eq_nil_of_le (by omega)
    simp [emitLoop, hdrop]
  | succ rem ih =>
    intro i st log hlen
    have hi : i < (heapGet st.heap r).length := by omega
    have hget : (heapGet st.heap r)[i]? = some ((heapGet st.heap r)[i]) :=
      List.getElem?_eq_getElem hi
    have hdrop : (heapGet st.heap r).drop i
        = (heapGet st.heap r)[i] :: (heapGet st.heap r).drop (i + 1) :=
      List.drop_eq_getElem_cons hi
    have hrun : runOps st (cbOps envEmpty ((heapGet st.heap r)[i]).1) = (none, st) := by
      rw [cbOps_envEmpty]; rfl
    rw [emitLoop, hget]
    simp only [hrun]
    rw [ih (i + 1) st (log ++ [(((heapGet st.heap r)[i]).1, ((heapGet st.heap r)[i]).2, d)])
      (by omega)]
    rw [hdrop]
    simp only [List.map_cons, List.append_assoc, List.singleton_append]

/-- `emit` with pure listeners: no error, unchanged state, and the invocation
log is exactly the subscribed entries in insertion order, each invoked with its
paired context as receiver and the payload as sole argument. -/
theorem emit_pure (st : RegState) (name : String) (d : Val) :
    emit envEmpty st name d =
      (none, st, (entriesOf st name).map (fun t => (t.1, t.2, d))) := by
  unfold emit entriesOf
  cases hm : st.eventMap with
  | none => simp
  | some m =>
    cases hr : alistLookup m name with
    | none => simp [hr]
    | some r =>
      have h := emitLoop_pure r d (heapGet st.heap r).length 0 st [] (by simp)
      simp [hr, h]

/-- Appending one subscription to the single-event single-array state. -/
theorem onE_step (name : String) (l : List Entry) (c : Nat) (x : Val) :
    onE ⟨some [(name, 0)], [l]⟩ name (Val.fnV c) x
      = (none, ⟨some [(name, 0)], [l ++ [(Val.fnV c, x)]]⟩) := by
  simp [onE, Val.isFunction, alistLookup, heapGet, heapSet]

theorem onAll_cons (st : RegState) (name : String) (p : Nat × Val)
    (ps : List (Nat × Val)) :
    onAll st name (p :: ps) = onAll (onE st name (Val.fnV p.1) p.2).2 name ps := rfl

theorem onAll_from (name : String) :
    ∀ (ps : List (Nat × Val)) (l : List Entry),
      onAll ⟨some [(name, 0)], [l]⟩ name ps
        = ⟨some [(name, 0)], [l ++ ps.map (fun p => (Val.fnV p.1, p.2))]⟩ := by
  intro ps
  induction ps with
  | nil => intro l; simp [onAll]
  | cons p ps ih =>
    intro l
    rw [onAll_cons, onE_step, ih]
    simp

theorem onE_fresh (name : String) (c : Nat) (x : Val) :
    onE freshState name (Val.fnV c) x
      = (none, ⟨some [(name, 0)], [[(Val.fnV c, x)]]⟩) := by
  simp [onE, freshState, Val.isFunction]

theorem onAll_fresh_state (name : String) (p : Nat × Val) (ps : List (Nat × Val)) :
    onAll freshState name (p :: ps)
      = ⟨some [(name, 0)],
          [(Val.fnV p.1, p.2) :: ps.map (fun q => (Val.fnV q.1, q.2))]⟩ := by
  rw [onAll_cons, onE_fresh, onAll_from]
  simp

theorem entriesOf_single (name : String) (arr : List Entry) :
    entriesOf ⟨some [(name, 0)], [arr]⟩ name = arr := by
  simp [entriesOf, alistLookup, heapGet]

/-- Claim C2: registering `(cb_1, ctx_1), ..., (cb_n, ctx_n)` for one event
name on a fresh instance with no intervening mutation, then emitting that name
with a payload, invokes each registered entry exactly once, in ascending
registration order, each call receiving its paired context as receiver and the
payload as sole argument. -/
theorem subscribe_then_emit_invokes_in_order (name : String)
    (pairs : List (Nat × Val)) (d : Val) :
    emit envEmpty (onAll freshState name pairs) name d
      = (none, onAll freshState name pairs,
          pairs.map (fun p => (Val.fnV p.1, p.2, d))) := by
  cases pairs with
  | nil => rfl
  | cons p ps =>
    rw [emit_pure]
    rw [onAll_fresh_state, entriesOf_single]
    simp

end Eventful

namespace Eventful

/-- Claim C7: subscribing the identical `(callback, context)` pair twice for
the same event name on a fresh instance yields two independent entries; a
subsequent emit invokes the callback twice (once per entry); removing one
entry with `off` leaves the other entry, which still fires on a later emit. -/
theorem duplicate_subscription_fires_twice (name : String) (c : Nat) (x d : Val) :
    entriesOf ((onE (onE freshState name (Val.fnV c) x).2 name (Val.fnV c) x).2) name
      = [(Val.fnV c, x), (Val.fnV c, x)] ∧
    (emit envEmpty ((onE (onE freshState name (Val.fnV c) x).2 name (Val.fnV c) x).2)
        name d).2.2
      = [(Val.fnV c, x, d), (Val.fnV c, x, d)] ∧
    entriesOf (off ((onE (onE freshState name (Val.fnV c) x).2 name (Val.fnV c) x).2)
        name (Val.fnV c) x) name
      = [(Val.fnV c, x)] ∧
    (emit envEmpty (off ((onE (onE freshState name (Val.fnV c) x).2 name (Val.fnV c) x).2)
        name (Val.fnV c) x) name d).2.2
      = [(Val.fnV c, x, d)] := by
  have h2 : (onE (onE freshState name (Val.fnV c) x).2 name (Val.fnV c) x).2
      = ⟨some [(name, 0)], [[(Val.fnV c, x), (Val.fnV c, x)]]⟩ := by
    rw [onE_fresh, onE_step]
    rfl
  have hoff : off (⟨some [(name, 0)], [[(Val.fnV c, x), (Val.fnV c, x)]]⟩ : RegState)
      name (Val.fnV c) x
      = ⟨some [(name, 0)], [[(Val.fnV c, x)]]⟩ := by
    simp [off, alistLookup, heapGet, findMatchIdx, spliceOne, heapSet]
  rw [h2, hoff, emit_pure, emit_pure, entriesOf_single, entriesOf_single]
  simp

/-- Claim C1 (failing-input evaluation): with two listeners snapshotted for
"foo" at emit start, where the first unsubscribes itself during its own
invocation, the emit loop reads past the spliced array and throws a TypeError
(`tuple[0]` of `undefined`), and the second already-subscribed listener is
never invoked — contradicting the required stable-snapshot contract. -/
theorem emit_self_unsubscribe_faults :
    entriesOf stC1 "foo" = [(Val.fnV 0, Val.undef), (Val.fnV 1, Val.undef)] ∧
    (emit envC1 stC1 "foo" (Val.numV 7)).1 = some EmitErr.iterFault ∧
    (emit envC1 stC1 "foo" (Val.numV 7)).2.2 = [(Val.fnV 0, Val.undef, Val.numV 7)] := by
  decide

/-- Claim C9: `on` called with a non-invocable callback throws the
InvalidArgument error synchronously, and the registry state at the moment the
exception escapes is exactly the input state — the subscription mapping is
neither created nor modified. -/
theorem on_rejects_non_function (st : RegState) (name : String) (cb ctx : Val)
    (h : Val.isFunction cb = false) :
    onE st name cb ctx = (some Err.invalidArgument, st) := by
  simp [onE, h]

/-- Witness for `on_rejects_non_function` at a concrete non-function callback. -/
theorem on_rejects_non_function_witness :
    Val.isFunction Val.undef = false ∧
    onE freshState "x" Val.undef (Val.objV 3) = (some Err.invalidArgument, freshState) :=
  ⟨by decide, on_rejects_non_function freshState "x" Val.undef (Val.objV 3) (by decide)⟩

end Eventful

namespace Emits

open Eventful (Val)

/-- Reading back the slot just written returns the written value. -/
theorem slotGet_slotSet (slots : List (Nat × Val)) (inst : Nat) (v : Val) :
    slotGet (slotSet slots inst v) inst = v := by
  induction slots with
  | nil => simp [slotSet, slotGet]
  | cons p rest ih =>
    by_cases h : p.1 = inst
    · simp [slotSet, slotGet, h]
    · simp [slotSet, slotGet, h, ih]

/-- Claim C4: every write to an `@emits`-decorated plain writable field
schedules exactly one deferred emission, whose recorded payload is the
property name (independent of the written value); two successive writes
schedule two independent emissions (no coalescing); and a read immediately
after the write — before any deferred emission fires — already returns the
newly written value. -/
theorem write_schedules_single_emission (en pn : String) (initVal : Val)
    (s : EmitsState) (inst : Nat) (v w : Val) :
    (emitsSet en pn inst v s).pending = s.pending ++ [(inst, en, pn)] ∧
    (emitsGet initVal inst (emitsSet en pn inst v s)).1 = v ∧
    (emitsSet en pn inst w (emitsSet en pn inst v s)).pending
      = s.pending ++ [(inst, en, pn), (inst, en, pn)] := by
  refine ⟨rfl, ?_, by simp [emitsSet]⟩
  simp [emitsGet, emitsSet, slotGet_slotSet]

/-- Claim C3 (failing-input evaluation): with a declared initial value of 123,
after instance 0 performs the first-ever read of the decorated property
(receiving 123), the very first read on a *different* instance 1 returns
`undefined` rather than the declared initial value, because the "initialized"
flag is a single closure variable shared across all instances of the class,
not per-instance state. -/
theorem second_instance_first_read_not_initial :
    (emitsGet (Val.numV 123) 0 emitsFresh).1 = Val.numV 123 ∧
    (emitsGet (Val.numV 123) 1 (emitsGet (Val.numV 123) 0 emitsFresh).2).1 = Val.undef ∧
    Val.undef ≠ Val.numV 123 := by
  decide

end Emits

namespace HasInst

open Eventful (Val)

/-- A string-keyed table never yields the private `isEventful` symbol key. -/
theorem tableLookup_strTable (l : List (String × Val)) :
    tableLookup (strTable l) JsKey.symIsEventful = none := by
  induction l with
  | nil => rfl
  | cons p rest ih =>
    simp only [strTable, List.map_cons] at ih ⊢
    simp [tableLookup, ih]

/-- A chain of string-keyed tables never yields the `isEventful` symbol key. -/
theorem chainLookup_strChain (chain : List (List (String × Val))) :
    chainLookup (chain.map strTable) JsKey.symIsEventful = none := by
  induction chain with
  | nil => rfl
  | cons t rest ih => simp [chainLookup, tableLookup_strTable, ih]

/-- Claim C5: the `Symbol.hasInstance` check returns true for every object
constructed from the `Eventful(Base)` entry point and for every instance of
any further subclass (over an arbitrary base prototype chain, e.g. one through
`Array.prototype`), and returns false for unrelated plain objects whose own
properties and prototype chain carry only string-keyed members, however their
methods are named. -/
theorem hasInstance_provenance :
    (∀ (fields : List (String × Val)) (subProtos : List (List (String × Val)))
        (baseChain : List PropTable),
      eventfulHasInstance (JsValue.obj (mkEventfulInstance fields subProtos baseChain))
        = true) ∧
    (∀ (fields : List (String × Val)) (protoChain : List (List (String × Val))),
      eventfulHasInstance (JsValue.obj (plainObj fields protoChain)) = false) := by
  constructor
  · intro fields subProtos baseChain
    simp [eventfulHasInstance, truthyJs, getPropJs, getProp, mkEventfulInstance,
      chainLookup, tableLookup, isEventfulSym, truthyVal]
  · intro fields protoChain
    simp [eventfulHasInstance, truthyJs, getPropJs, getProp, plainObj,
      chainLookup, tableLookup_strTable, chainLookup_strChain, truthyVal]

end HasInst

namespace Eventful

theorem heapGet_append_lt (h : List (List Entry)) (a : List Entry) (r : Nat)
    (hr : r < h.length) : heapGet (h ++ [a]) r = heapGet h r := by
  simp [heapGet, List.getElem?_append_left hr]

theorem heapGet_append_len (h : List (List Entry)) (a : List Entry) :
    heapGet (h ++ [a]) h.length = a := by
  simp [heapGet, List.getElem?_concat_length]

theorem heapGet_set_self (h : List (List Entry)) (a : List Entry) (r : Nat)
    (hr : r < h.length) : heapGet (heapSet h r a) r = a := by
  simp [heapGet, heapSet, List.getElem?_set_self hr]

theorem heapGet_set_ne (h : List (List Entry)) (a : List Entry) (r r' : Nat)
    (hne : r ≠ r') : heapGet (heapSet h r a) r' = heapGet h r' := by
  simp [heapGet, heapSet, List.getElem?_set_ne hne]

theorem length_heapSet (h : List (List Entry)) (r : Nat) (a : List Entry) :
    (heapSet h r a).length = h.length := by
  simp [heapSet]

theorem heapFn_append (h : List (List Entry)) (a : List Entry)
    (h1 : heapFn h = true) (h2 : entriesFn a = true) : heapFn (h ++ [a]) = true := by
  simp only [heapFn, List.all_append, Bool.and_eq_true] at *
  exact ⟨h1, by simpa using h2⟩

theorem heapFn_set (h : List (List Entry)) (r : Nat) (a : List Entry)
    (h1 : heapFn h = true) (h2 : entriesFn a = true) : heapFn (heapSet h r a) = true := by
  simp only [heapFn, List.all_eq_true] at *
  intro arr harr
  rcases List.mem_or_eq_of_mem_set harr with hm | he
  · exact h1 arr hm
  · rw [he]; exact h2

theorem heapFn_heapGet (h : List (List Entry)) (r : Nat)
    (h1 : heapFn h = true) : entriesFn (heapGet h r) = true := by
  by_cases hr : r < h.length
  · have hg : h[r]? = some h[r] := List.getElem?_eq_getElem hr
    have hmem : heapGet h r ∈ h := by
      unfold heapGet
      rw [List.getD_eq_getElem?_getD, hg, Option.getD_some]
      exact List.getElem_mem hr
    simp only [heapFn, List.all_eq_true] at h1
    exact h1 _ hmem
  · have : h[r]? = none := List.getElem?_eq_none (by omega)
    simp [heapGet, this, entriesFn]

theorem entriesFn_append (l : List Entry) (e : Entry)
    (h1 : entriesFn l = true) (h2 : Val.isFunction e.1 = true) :
    entriesFn (l ++ [e]) = true := by
  simp only [entriesFn, List.all_append, Bool.and_eq_true] at *
  exact ⟨h1, by simpa using h2⟩

theorem entriesFn_spliceOne (l : List Entry) (i : Nat)
    (h1 : entriesFn l = true) : entriesFn (spliceOne l i) = true := by
  induction l generalizing i with
  | nil => simpa [spliceOne] using h1
  | cons t rest ih =>
    simp only [entriesFn, List.all_cons, Bool.and_eq_true] at h1
    cases i with
    | zero => simpa [spliceOne, entriesFn] using h1.2
    | succ n =>
      have := ih n h1.2
      simp only [spliceOne, entriesFn, List.all_cons, Bool.and_eq_true]
      exact ⟨h1.1, this⟩

theorem findMatchIdx_undef_none (ctx : Val) (l : List Entry)
    (h1 : entriesFn l = true) : findMatchIdx Val.undef ctx l = none := by
  induction l with
  | nil => rfl
  | cons t rest ih =>
    simp only [entriesFn, List.all_cons, Bool.and_eq_true] at h1
    have hne : ¬(t.1 = Val.undef ∧ t.2 = ctx) := by
      intro hc
      rw [hc.1] at h1
      simp [Val.isFunction] at h1
    simp [findMatchIdx, hne, ih h1.2]

theorem alistLookup_mem (m : List (String × Nat)) (k : String) (r : Nat)
    (h : alistLookup m k = some r) : (k, r) ∈ m := by
  induction m with
  | nil => simp [alistLookup] at h
  | cons q rest ih =>
    by_cases hq : q.1 = k
    · simp only [alistLookup, if_pos hq] at h
      have h2 : (k, r) = q := by
        obtain ⟨q1, q2⟩ := q
        simp only [Option.some.injEq] at h
        simp_all
      rw [h2]
      exact List.mem_cons_self _ _
    · simp only [alistLookup, if_neg hq] at h
      exact List.mem_cons_of_mem _ (ih h)

theorem alistLookup_none_iff (m : List (String × Nat)) (k : String) :
    alistLookup m k = none ↔ ∀ p ∈ m, p.1 ≠ k := by
  induction m with
  | nil => simp [alistLookup]
  | cons q rest ih =>
    by_cases hq : q.1 = k
    · simp [alistLookup, hq]
    · simp [alistLookup, hq, ih]

theorem alistErase_mem (m : List (String × Nat)) (k : String) (p : String × Nat)
    (h : p ∈ alistErase m k) : p ∈ m := by
  induction m with
  | nil => simp [alistErase] at h
  | cons q rest ih =>
    by_cases hq : q.1 = k
    · rw [alistErase, if_pos hq] at h
      exact List.mem_cons_of_mem _ h
    · rw [alistErase, if_neg hq] at h
      rcases List.mem_cons.mp h with he | hm
      · exact he ▸ List.mem_cons_self _ _
      · exact List.mem_cons_of_mem _ (ih hm)

theorem alistLookup_erase_none (m : List (String × Nat)) (k key : String)
    (h : alistLookup m key = none) : alistLookup (alistErase m k) key = none := by
  rw [alistLookup_none_iff] at h ⊢
  intro p hp
  exact h p (alistErase_mem m k p hp)

theorem nodupKeys_alistErase (m : List (String × Nat)) (k : String)
    (h : nodupKeys m = true) : nodupKeys (alistErase m k) = true := by
  induction m with
  | nil => simpa [alistErase] using h
  | cons q rest ih =>
    simp only [nodupKeys, Bool.and_eq_true, beq_iff_eq] at h
    by_cases hq : q.1 = k
    · rw [alistErase, if_pos hq]
      exact h.2
    · rw [alistErase, if_neg hq]
      simp only [nodupKeys, Bool.and_eq_true, beq_iff_eq]
      exact ⟨alistLookup_erase_none rest k q.1 h.1, ih h.2⟩

theorem nodupRefs_any_eq (m : List (String × Nat)) (v : Nat) :
    (m.any (fun q => q.2 == v)) = false ↔ ∀ p ∈ m, p.2 ≠ v := by
  simp [List.any_eq_true]

theorem nodupRefs_alistErase (m : List (String × Nat)) (k : String)
    (h : nodupRefs m = true) : nodupRefs (alistErase m k) = true := by
  induction m with
  | nil => simpa [alistErase] using h
  | cons q rest ih =>
    simp only [nodupRefs, Bool.and_eq_true, Bool.not_eq_true'] at h
    by_cases hq : q.1 = k
    · rw [alistErase, if_pos hq]
      exact h.2
    · rw [alistErase, if_neg hq]
      simp only [nodupRefs, Bool.and_eq_true, Bool.not_eq_true']
      refine ⟨?_, ih h.2⟩
      rw [nodupRefs_any_eq] at h ⊢
      exact fun p hp => h.1 p (alistErase_mem rest k p hp)

end Eventful

namespace Eventful

theorem alistLookup_append_none (m : List (String × Nat)) (q : String × Nat) (k : String)
    (h1 : alistLookup m k = none) (h2 : q.1 ≠ k) :
    alistLookup (m ++ [q]) k = none := by
  rw [alistLookup_none_iff] at h1 ⊢
  intro p hp
  rcases List.mem_append.mp hp with hm | he
  · exact h1 p hm
  · rw [List.mem_singleton.mp he]
    exact h2

theorem nodupKeys_append (m : List (String × Nat)) (n : String) (L : Nat)
    (h1 : nodupKeys m = true) (h2 : alistLookup m n = none) :
    nodupKeys (m ++ [(n, L)]) = true := by
  induction m with
  | nil => simp [nodupKeys, alistLookup]
  | cons q rest ih =>
    simp only [nodupKeys, Bool.and_eq_true, beq_iff_eq] at h1
    simp only [alistLookup] at h2
    by_cases hq : q.1 = n
    · rw [if_pos hq] at h2
      exact absurd h2 (by simp)
    · rw [if_neg hq] at h2
      simp only [List.cons_append, nodupKeys, Bool.and_eq_true, beq_iff_eq]
      refine ⟨alistLookup_append_none rest (n, L) q.1 h1.1 ?_, ih h1.2 h2⟩
      intro hcon
      exact hq hcon.symm

theorem nodupRefs_append (m : List (String × Nat)) (n : String) (L : Nat)
    (h1 : nodupRefs m = true) (h2 : ∀ p ∈ m, p.2 ≠ L) :
    nodupRefs (m ++ [(n, L)]) = true := by
  induction m with
  | nil => simp [nodupRefs]
  | cons q rest ih =>
    simp only [nodupRefs, Bool.and_eq_true, Bool.not_eq_true'] at h1
    simp only [List.cons_append, nodupRefs, Bool.and_eq_true, Bool.not_eq_true']
    constructor
    · rw [nodupRefs_any_eq] at h1 ⊢
      intro p hp
      rcases List.mem_append.mp hp with hm | he
      · exact h1.1 p hm
      · rw [List.mem_singleton.mp he]
        intro hcon
        exact h2 q (List.mem_cons_self _ _) hcon.symm
    · exact ih h1.2 (fun p hp => h2 p (List.mem_cons_of_mem _ hp))

theorem alistErase_ref_ne (m : List (String × Nat)) (name : String) (r : Nat)
    (hnd : nodupRefs m = true) (hl : alistLookup m name = some r) :
    ∀ p ∈ alistErase m name, p.2 ≠ r := by
  induction m with
  | nil => simp [alistErase]
  | cons q rest ih =>
    simp only [nodupRefs, Bool.and_eq_true, Bool.not_eq_true'] at hnd
    by_cases hq : q.1 = name
    · rw [alistLookup, if_pos hq, Option.some.injEq] at hl
      rw [alistErase, if_pos hq]
      intro p hp
      have := (nodupRefs_any_eq rest q.2).mp hnd.1 p hp
      rw [← hl]
      exact this
    · rw [alistLookup, if_neg hq] at hl
      rw [alistErase, if_neg hq]
      intro p hp
      rcases List.mem_cons.mp hp with he | hm
      · have hrm : (name, r) ∈ rest := alistLookup_mem rest name r hl
        have := (nodupRefs_any_eq rest q.2).mp hnd.1 (name, r) hrm
        rw [he]
        intro hcon
        exact this hcon.symm
      · exact ih hnd.2 hl p hm

/-- The registry invariant, unfolded to propositional form. -/
theorem regGood_iff (st : RegState) :
    regGood st = true ↔
      (heapFn st.heap = true ∧
        ∀ m, st.eventMap = some m →
          m ≠ [] ∧ nodupKeys m = true ∧ nodupRefs m = true ∧
            ∀ p ∈ m, p.2 < st.heap.length ∧ heapGet st.heap p.2 ≠ []) := by
  cases hm : st.eventMap with
  | none => simp [regGood, mapGood, hm]
  | some m =>
    simp only [regGood, mapGood, hm, Bool.and_eq_true, List.all_eq_true,
      Bool.not_eq_true', Option.some.injEq, decide_eq_true_eq,
      List.isEmpty_eq_false, and_assoc]
    constructor
    · rintro ⟨hh, hne, hnk, hnr, hall⟩
      refine ⟨hh, ?_⟩
      rintro m' rfl
      exact ⟨hne, hnk, hnr, hall⟩
    · rintro ⟨hh, hrest⟩
      obtain ⟨hne, hnk, hnr, hall⟩ := hrest m rfl
      exact ⟨hh, hne, hnk, hnr, hall⟩

end Eventful

namespace Eventful

theorem isFunction_not_false (c : Val) (hf : ¬ Val.isFunction c = false) :
    Val.isFunction c = true := by
  cases h : Val.isFunction c
  · exact absurd h hf
  · rfl

/-- `on` preserves the registry invariant. -/
theorem regGood_onE (st : RegState) (n : String) (c x : Val)
    (h : regGood st = true) : regGood (onE st n c x).2 = true := by
  by_cases hf : Val.isFunction c = false
  · simpa [onE, hf] using h
  · have hc := isFunction_not_false c hf
    rw [regGood_iff] at h
    obtain ⟨hheap, hmap⟩ := h
    have hent : entriesFn [(c, x)] = true := by simp [entriesFn, hc]
    cases hm : st.eventMap with
    | none =>
      have hres : (onE st n c x).2
          = ⟨some [(n, st.heap.length)], st.heap ++ [[(c, x)]]⟩ := by
        simp [onE, hf, hm]
      rw [hres, regGood_iff]
      refine ⟨heapFn_append st.heap [(c, x)] hheap hent, ?_⟩
      rintro m' hm'
      injection hm' with hm2
      subst hm2
      refine ⟨by simp, by simp [nodupKeys, alistLookup], by simp [nodupRefs], ?_⟩
      intro p hp
      rw [List.mem_singleton] at hp
      subst hp
      refine ⟨by simp, ?_⟩
      rw [heapGet_append_len]
      simp
    | some m =>
      obtain ⟨hne, hnk, hnr, hall⟩ := hmap m hm
      cases hr : alistLookup m n with
      | none =>
        have hres : (onE st n c x).2
            = ⟨some (m ++ [(n, st.heap.length)]), st.heap ++ [[(c, x)]]⟩ := by
          simp [onE, hf, hm, hr]
        rw [hres, regGood_iff]
        refine ⟨heapFn_append _ _ hheap hent, ?_⟩
        rintro m' hm'
        injection hm' with hm2
        subst hm2
        refine ⟨by simp, nodupKeys_append m n _ hnk hr, ?_, ?_⟩
        · refine nodupRefs_append m n _ hnr ?_
          intro p hp
          have h1 := (hall p hp).1
          omega
        · intro p hp
          rcases List.mem_append.mp hp with hpm | hpe
          · obtain ⟨h1, h2⟩ := hall p hpm
            refine ⟨by simp only [List.length_append, List.length_cons, List.length_nil]; omega, ?_⟩
            rw [heapGet_append_lt _ _ _ h1]
            exact h2
          · rw [List.mem_singleton] at hpe
            subst hpe
            refine ⟨by simp, ?_⟩
            rw [heapGet_append_len]
            simp
      | some r =>
        have hrm : (n, r) ∈ m := alistLookup_mem m n r hr
        obtain ⟨hrlt, hrne⟩ := hall (n, r) hrm
        have hres : (onE st n c x).2
            = ⟨some m, heapSet st.heap r (heapGet st.heap r ++ [(c, x)])⟩ := by
          simp [onE, hf, hm, hr]
        rw [hres, regGood_iff]
        refine ⟨heapFn_set _ _ _ hheap
          (entriesFn_append _ _ (heapFn_heapGet _ _ hheap) hc), ?_⟩
        rintro m' hm'
        injection hm' with hm2
        subst hm2
        refine ⟨hne, hnk, hnr, ?_⟩
        intro p hp
        obtain ⟨h1, h2⟩ := hall p hp
        constructor
        · rw [length_heapSet]
          exact h1
        · by_cases hpr : p.2 = r
          · rw [hpr, heapGet_set_self _ _ _ hrlt]
            simp
          · rw [heapGet_set_ne _ _ _ _ (Ne.symm hpr)]
            exact h2

end Eventful

namespace Eventful

/-- `off` preserves the registry invariant. -/
theorem regGood_off (st : RegState) (n : String) (c x : Val)
    (h : regGood st = true) : regGood (off st n c x) = true := by
  cases hm : st.eventMap with
  | none => simpa [off, hm] using h
  | some m =>
    cases hr : alistLookup m n with
    | none => simpa [off, hm, hr] using h
    | some r =>
      cases hi : findMatchIdx c x (heapGet st.heap r) with
      | none => simpa [off, hm, hr, hi] using h
      | some i =>
        rw [regGood_iff] at h
        obtain ⟨hheap, hmap⟩ := h
        obtain ⟨hne, hnk, hnr, hall⟩ := hmap m hm
        have hrm : (n, r) ∈ m := alistLookup_mem m n r hr
        obtain ⟨hrlt, hrne⟩ := hall (n, r) hrm
        have hfn' : entriesFn (spliceOne (heapGet st.heap r) i) = true :=
          entriesFn_spliceOne _ _ (heapFn_heapGet _ _ hheap)
        cases he : (spliceOne (heapGet st.heap r) i).isEmpty with
        | true =>
          cases hme : (alistErase m n).isEmpty with
          | true =>
            have hres : off st n c x
                = ⟨none, heapSet st.heap r (spliceOne (heapGet st.heap r) i)⟩ := by
              simp [off, hm, hr, hi, he, hme]
            rw [hres, regGood_iff]
            refine ⟨heapFn_set _ _ _ hheap hfn', ?_⟩
            intro m' hm'
            exact absurd hm' (by simp)
          | false =>
            have hres : off st n c x
                = ⟨some (alistErase m n),
                   heapSet st.heap r (spliceOne (heapGet st.heap r) i)⟩ := by
              simp [off, hm, hr, hi, he, hme]
            rw [hres, regGood_iff]
            refine ⟨heapFn_set _ _ _ hheap hfn', ?_⟩
            rintro m' hm'
            injection hm' with hm2
            subst hm2
            refine ⟨by simpa [List.isEmpty_eq_false] using hme,
              nodupKeys_alistErase m n hnk, nodupRefs_alistErase m n hnr, ?_⟩
            intro p hp
            have hpm : p ∈ m := alistErase_mem m n p hp
            obtain ⟨h1, h2⟩ := hall p hpm
            have hpr : p.2 ≠ r := alistErase_ref_ne m n r hnr hr p hp
            constructor
            · rw [length_heapSet]
              exact h1
            · rw [heapGet_set_ne _ _ _ _ (Ne.symm hpr)]
              exact h2
        | false =>
          have hmne : m.isEmpty = false := by
            simp [List.isEmpty_eq_false, hne]
          have hres : off st n c x
              = ⟨some m, heapSet st.heap r (spliceOne (heapGet st.heap r) i)⟩ := by
            simp [off, hm, hr, hi, he, hmne]
          rw [hres, regGood_iff]
          refine ⟨heapFn_set _ _ _ hheap hfn', ?_⟩
          rintro m' hm'
          injection hm' with hm2
          subst hm2
          refine ⟨hne, hnk, hnr, ?_⟩
          intro p hp
          obtain ⟨h1, h2⟩ := hall p hp
          constructor
          · rw [length_heapSet]
            exact h1
          · by_cases hpr : p.2 = r
            · rw [hpr, heapGet_set_self _ _ _ hrlt]
              simpa [List.isEmpty_eq_false] using he
            · rw [heapGet_set_ne _ _ _ _ (Ne.symm hpr)]
              exact h2

end Eventful

namespace Eventful

theorem regGood_runOp (st : RegState) (op : RegOp)
    (h : regGood st = true) : regGood (runOp st op).2 = true := by
  cases op with
  | onOp n c x => exact regGood_onE st n c x h
  | offOp n c x => exact regGood_off st n c x h

theorem regGood_runOps (ops : List RegOp) :
    ∀ st : RegState, regGood st = true → regGood (runOps st ops).2 = true := by
  induction ops with
  | nil =>
    intro st h
    exact h
  | cons op rest ih =>
    intro st h
    have h1 := regGood_runOp st op h
    rw [runOps]
    cases hro : runOp st op with
    | mk e st' =>
      rw [hro] at h1
      cases e with
      | none => exact ih st' h1
      | some err => exact h1

theorem regGood_emitLoop (env : Env) (r : Nat) (d : Val) :
    ∀ (rem i : Nat) (st : RegState) (log : Log),
      regGood st = true → regGood (emitLoop env r d rem i st log).2.1 = true := by
  intro rem
  induction rem with
  | zero =>
    intro i st log h
    exact h
  | succ rem ih =>
    intro i st log h
    cases hg : (heapGet st.heap r)[i]? with
    | none => simpa [emitLoop, hg] using h
    | some t =>
      have h1 := regGood_runOps (cbOps env t.1) st h
      cases hro : runOps st (cbOps env t.1) with
      | mk e st' =>
        rw [hro] at h1
        cases e with
        | none =>
          have h2 := ih (i + 1) st' (log ++ [(t.1, t.2, d)]) h1
          simpa [emitLoop, hg, hro] using h2
        | some err =>
          simpa [emitLoop, hg, hro] using h1

theorem regGood_emit (env : Env) (st : RegState) (n : String) (d : Val)
    (h : regGood st = true) : regGood (emit env st n d).2.1 = true := by
  cases hm : st.eventMap with
  | none => simpa [emit, hm] using h
  | some m =>
    cases hr : alistLookup m n with
    | none => simpa [emit, hm, hr] using h
    | some r =>
      have h2 := regGood_emitLoop env r d (heapGet st.heap r).length 0 st [] h
      simpa [emit, hm, hr] using h2

/-- Every state reachable through the public operations satisfies the registry
invariant. -/
theorem reachable_regGood (env : Env) (st : RegState)
    (h : Reachable env st) : regGood st = true := by
  induction h with
  | init => rfl
  | stepOn s n c x _ ih => exact regGood_onE s n c x ih
  | stepOff s n c x _ ih => exact regGood_off s n c x ih
  | stepEmit s n d _ ih => exact regGood_emit env s n d ih

/-- Claim C8: in every state reachable by any interleaving of on/off/emit, an
event name key is present in the subscription mapping only while at least one
entry exists for it, and the mapping itself is absent (null) unless some event
name holds a subscription; the fresh instance starts with no mapping, which is
created lazily by the first `on`. -/
theorem registry_map_invariant (env : Env) (st : RegState) (h : Reachable env st) :
    freshState.eventMap = none ∧
    ∀ m, st.eventMap = some m →
      m ≠ [] ∧ ∀ p ∈ m, heapGet st.heap p.2 ≠ [] := by
  have hg := reachable_regGood env st h
  rw [regGood_iff] at hg
  refine ⟨rfl, ?_⟩
  intro m hm
  obtain ⟨hne, _, _, hall⟩ := hg.2 m hm
  exact ⟨hne, fun p hp => (hall p hp).2⟩

/-- Witness for `registry_map_invariant` at the state reached by one `on`,
instantiated at its single event name key. -/
theorem registry_map_invariant_witness :
    freshState.eventMap = none ∧
    [("a", 0)] ≠ ([] : List (String × Nat)) ∧
    heapGet (onE freshState "a" (Val.fnV 0) Val.undef).2.heap 0 ≠ [] :=
  ⟨(registry_map_invariant envEmpty (onE freshState "a" (Val.fnV 0) Val.undef).2
      (Reachable.stepOn freshState "a" (Val.fnV 0) Val.undef Reachable.init)).1,
   ((registry_map_invariant envEmpty (onE freshState "a" (Val.fnV 0) Val.undef).2
      (Reachable.stepOn freshState "a" (Val.fnV 0) Val.undef Reachable.init)).2
      [("a", 0)] rfl).1,
   ((registry_map_invariant envEmpty (onE freshState "a" (Val.fnV 0) Val.undef).2
      (Reachable.stepOn freshState "a" (Val.fnV 0) Val.undef Reachable.init)).2
      [("a", 0)] rfl).2 ("a", 0) (by simp)⟩

/-- Claim C10: calling `off(eventName)` with the callback argument omitted
(`callback === undefined`) never removes an entry and leaves any reachable
registry state unchanged, because `on` only ever stores function-valued
callbacks and the identity comparison of a stored callback against `undefined`
can never match. -/
theorem off_omitted_callback_noop (env : Env) (st : RegState)
    (h : Reachable env st) (name : String) (ctx : Val) :
    off st name Val.undef ctx = st := by
  have hg := reachable_regGood env st h
  rw [regGood_iff] at hg
  obtain ⟨hheap, _⟩ := hg
  cases hm : st.eventMap with
  | none => simp [off, hm]
  | some m =>
    cases hr : alistLookup m name with
    | none => simp [off, hm, hr]
    | some r =>
      have hfind : findMatchIdx Val.undef ctx (heapGet st.heap r) = none :=
        findMatchIdx_undef_none ctx _ (heapFn_heapGet _ _ hheap)
      simp [off, hm, hr, hfind]

/-- Witness for `off_omitted_callback_noop` at the state reached by one `on`. -/
theorem off_omitted_callback_noop_witness :
    off (onE freshState "a" (Val.fnV 0) Val.undef).2 "a" Val.undef Val.undef
      = (onE freshState "a" (Val.fnV 0) Val.undef).2 :=
  off_omitted_callback_noop envEmpty (onE freshState "a" (Val.fnV 0) Val.undef).2
    (Reachable.stepOn freshState "a" (Val.fnV 0) Val.undef Reachable.init) "a" Val.undef

end Eventful

namespace Eventful

/-- Erasing the (unique) key makes its lookup miss. -/
theorem alistLookup_alistErase_self (m : List (String × Nat)) (name : String)
    (hnk : nodupKeys m = true) :
    alistLookup (alistErase m name) name = none := by
  induction m with
  | nil => simp [alistErase, alistLookup]
  | cons q rest ih =>
    simp only [nodupKeys, Bool.and_eq_true, beq_iff_eq] at hnk
    by_cases hq : q.1 = name
    · rw [alistErase, if_pos hq]
      rw [← hq]
      exact hnk.1
    · rw [alistErase, if_neg hq, alistLookup, if_neg hq]
      exact ih hnk.2

/-- Erasing one key leaves lookups of other keys unchanged. -/
theorem alistLookup_alistErase_ne (m : List (String × Nat)) (name n' : String)
    (hne : n' ≠ name) :
    alistLookup (alistErase m name) n' = alistLookup m n' := by
  induction m with
  | nil => simp [alistErase]
  | cons q rest ih =>
    by_cases hq : q.1 = name
    · rw [alistErase, if_pos hq, alistLookup, if_neg (by rw [hq]; exact fun hc => hne hc.symm)]
    · rw [alistErase, if_neg hq]
      by_cases hq' : q.1 = n'
      · rw [alistLookup, if_pos hq', alistLookup, if_pos hq']
      · rw [alistLookup, if_neg hq', alistLookup, if_neg hq']
        exact ih

/-- If erasing one key empties the map, no other key was present. -/
theorem alistErase_nil_lookup (m : List (String × Nat)) (name n' : String)
    (hz : alistErase m name = []) (hne : n' ≠ name) :
    alistLookup m n' = none := by
  have := alistLookup_alistErase_ne m name n' hne
  rw [hz] at this
  rw [← this]
  rfl

/-- With pairwise-distinct references, different keys reference different
arrays. -/
theorem lookup_ne_ref (m : List (String × Nat)) (name n' : String) (r r' : Nat)
    (hnr : nodupRefs m = true) (h1 : alistLookup m name = some r)
    (h2 : alistLookup m n' = some r') (hne : n' ≠ name) : r' ≠ r := by
  induction m with
  | nil => simp [alistLookup] at h1
  | cons q rest ih =>
    simp only [nodupRefs, Bool.and_eq_true, Bool.not_eq_true'] at hnr
    by_cases hq : q.1 = name
    · rw [alistLookup, if_pos hq, Option.some.injEq] at h1
      rw [alistLookup, if_neg (by rw [hq]; exact fun hc => hne hc.symm)] at h2
      have hmem : (n', r') ∈ rest := alistLookup_mem rest n' r' h2
      have := (nodupRefs_any_eq rest q.2).mp hnr.1 (n', r') hmem
      rw [← h1]
      exact this
    · rw [alistLookup, if_neg hq] at h1
      by_cases hq' : q.1 = n'
      · rw [alistLookup, if_pos hq', Option.some.injEq] at h2
        have hmem : (name, r) ∈ rest := alistLookup_mem rest name r h1
        have := (nodupRefs_any_eq rest q.2).mp hnr.1 (name, r) hmem
        rw [← h2]
        intro hc
        exact this hc.symm
      · rw [alistLookup, if_neg hq'] at h2
        exact ih hnr.2 h1 h2

/-- No match found is the same as a zero match count. -/
theorem countMatch_zero_iff (cb ctx : Val) (l : List Entry) :
    countMatch cb ctx l = 0 ↔ findMatchIdx cb ctx l = none := by
  induction l with
  | nil => simp [countMatch, findMatchIdx]
  | cons t rest ih =>
    by_cases hm : t.1 = cb ∧ t.2 = ctx
    · simp [countMatch, findMatchIdx, hm, List.countP_cons] at *
    · simp only [countMatch, List.countP_cons, decide_eq_true_eq, hm, if_false,
        findMatchIdx, if_neg hm] at *
      constructor
      · intro h
        rw [ih.mp (by omega)]
        rfl
      · intro h
        cases hf : findMatchIdx cb ctx rest with
        | none => simpa using ih.mpr hf
        | some j => rw [hf] at h; simp at h

/-- Splicing out a matched index decrements the match count by one. -/
theorem countMatch_spliceOne (cb ctx : Val) :
    ∀ (l : List Entry) (i : Nat), findMatchIdx cb ctx l = some i →
      countMatch cb ctx (spliceOne l i) + 1 = countMatch cb ctx l := by
  intro l
  induction l with
  | nil => intro i h; simp [findMatchIdx] at h
  | cons t rest ih =>
    intro i h
    by_cases hm : t.1 = cb ∧ t.2 = ctx
    · rw [findMatchIdx, if_pos hm, Option.some.injEq] at h
      subst h
      simp [spliceOne, countMatch, List.countP_cons, hm]
    · rw [findMatchIdx, if_neg hm] at h
      cases hf : findMatchIdx cb ctx rest with
      | none => rw [hf] at h; simp at h
      | some j =>
        rw [hf] at h
        simp at h
        subst h
        have := ih j hf
        simp only [spliceOne, countMatch, List.countP_cons, decide_eq_true_eq, hm,
          if_false] at *
        omega

/-- `off` with no matching entry (including no mapping or no entry collection)
is a silent no-op. -/
theorem off_no_match (st : RegState) (name : String) (cb ctx : Val)
    (h : findMatchIdx cb ctx (entriesOf st name) = none) :
    off st name cb ctx = st := by
  cases hm : st.eventMap with
  | none => simp [off, hm]
  | some m =>
    cases hr : alistLookup m name with
    | none => simp [off, hm, hr]
    | some r =>
      have he : entriesOf st name = heapGet st.heap r := by
        simp [entriesOf, hm, hr]
      rw [he] at h
      simp [off, hm, hr, h]

end Eventful

namespace Eventful

/-- `findIndex` semantics: a found index holds a matching entry and every
earlier index holds a non-matching one. -/
theorem findMatchIdx_some_spec (cb ctx : Val) :
    ∀ (l : List Entry) (i : Nat), findMatchIdx cb ctx l = some i →
      (∃ t, l[i]? = some t ∧ t.1 = cb ∧ t.2 = ctx) ∧
      ∀ j, j < i → ∀ u, l[j]? = some u → ¬(u.1 = cb ∧ u.2 = ctx) := by
  intro l
  induction l with
  | nil =>
    intro i h
    simp [findMatchIdx] at h
  | cons t rest ih =>
    intro i h
    by_cases hm : t.1 = cb ∧ t.2 = ctx
    · rw [findMatchIdx, if_pos hm, Option.some.injEq] at h
      subst h
      refine ⟨⟨t, by simp, hm.1, hm.2⟩, ?_⟩
      intro j hj
      exact absurd hj (by omega)
    · rw [findMatchIdx, if_neg hm] at h
      cases hf : findMatchIdx cb ctx rest with
      | none =>
        rw [hf] at h
        simp at h
      | some j =>
        rw [hf] at h
        simp at h
        subst h
        obtain ⟨⟨u, hu, hu1, hu2⟩, hfirst⟩ := ih j hf
        refine ⟨⟨u, by simpa using hu, hu1, hu2⟩, ?_⟩
        intro k hk v hv
        cases k with
        | zero =>
          simp at hv
          subst hv
          exact hm
        | succ k' =>
          simp at hv
          exact hfirst k' (by omega) v hv

/-- Effect of a matching `off` on the entry collections: the matched event
name loses exactly the entry at the found index, every other event name keeps
its entries. -/
theorem off_match_entries (st : RegState) (name : String) (cb ctx : Val) (i : Nat)
    (hg : regGood st = true)
    (hfind : findMatchIdx cb ctx (entriesOf st name) = some i) :
    entriesOf (off st name cb ctx) name = spliceOne (entriesOf st name) i ∧
    ∀ n', n' ≠ name → entriesOf (off st name cb ctx) n' = entriesOf st n' := by
  rw [regGood_iff] at hg
  obtain ⟨hheap, hmap⟩ := hg
  cases hm : st.eventMap with
  | none =>
    rw [show entriesOf st name = [] from by simp [entriesOf, hm]] at hfind
    simp [findMatchIdx] at hfind
  | some m =>
    cases hr : alistLookup m name with
    | none =>
      rw [show entriesOf st name = [] from by simp [entriesOf, hm, hr]] at hfind
      simp [findMatchIdx] at hfind
    | some r =>
      obtain ⟨hne, hnk, hnr, hall⟩ := hmap m hm
      have hrm := alistLookup_mem m name r hr
      obtain ⟨hrlt, hrne⟩ := hall (name, r) hrm
      have hearr : entriesOf st name = heapGet st.heap r := by
        simp [entriesOf, hm, hr]
      rw [hearr] at hfind
      cases hsp : (spliceOne (heapGet st.heap r) i).isEmpty with
      | true =>
        have harr' : spliceOne (heapGet st.heap r) i = [] := by
          simpa using hsp
        cases hme : (alistErase m name).isEmpty with
        | true =>
          have hoff : off st name cb ctx
              = ⟨none, heapSet st.heap r (spliceOne (heapGet st.heap r) i)⟩ := by
            simp [off, hm, hr, hfind, hsp, hme]
          constructor
          · rw [hoff, hearr, harr']
            simp [entriesOf]
          · intro n' hne'
            rw [hoff]
            have hmz : alistErase m name = [] := by simpa using hme
            have hln : alistLookup m n' = none :=
              alistErase_nil_lookup m name n' hmz hne'
            simp [entriesOf, hm, hln]
        | false =>
          have hoff : off st name cb ctx
              = ⟨some (alistErase m name),
                 heapSet st.heap r (spliceOne (heapGet st.heap r) i)⟩ := by
            simp [off, hm, hr, hfind, hsp, hme]
          constructor
          · rw [hoff, hearr, harr']
            simp [entriesOf, alistLookup_alistErase_self m name hnk]
          · intro n' hne'
            rw [hoff]
            have hl := alistLookup_alistErase_ne m name n' hne'
            cases hl' : alistLookup m n' with
            | none => simp [entriesOf, hm, hl, hl']
            | some r' =>
              have hr'ne : r' ≠ r := lookup_ne_ref m name n' r r' hnr hr hl' hne'
              simp only [entriesOf, hm, hl, hl']
              exact heapGet_set_ne _ _ _ _ (Ne.symm hr'ne)
      | false =>
        have hmne : m.isEmpty = false := by simp [hne]
        have hoff : off st name cb ctx
            = ⟨some m, heapSet st.heap r (spliceOne (heapGet st.heap r) i)⟩ := by
          simp [off, hm, hr, hfind, hsp, hmne]
        constructor
        · rw [hoff, hearr]
          simp only [entriesOf, hr]
          exact heapGet_set_self _ _ _ hrlt
        · intro n' hne'
          rw [hoff]
          cases hl' : alistLookup m n' with
          | none => simp [entriesOf, hm, hl']
          | some r' =>
            have hr'ne : r' ≠ r := lookup_ne_ref m name n' r r' hnr hr hl' hne'
            simp only [entriesOf, hm, hl']
            exact heapGet_set_ne _ _ _ _ (Ne.symm hr'ne)

/-- Claim C6: in any reachable state, `off(eventName, callback, context)` is a
silent no-op leaving the state unchanged when no mapping, no entry collection
or no matching entry exists; when a match exists it removes exactly one entry
— the first in insertion order whose callback and context both match by
identity — leaving all other entries and all other event names unchanged; and
if exactly one entry matched, a second identical `off` call is a no-op. -/
theorem off_removes_first_match_or_noop (env : Env) (st : RegState)
    (h : Reachable env st) (name : String) (cb ctx : Val) :
    (findMatchIdx cb ctx (entriesOf st name) = none → off st name cb ctx = st) ∧
    (∀ i, findMatchIdx cb ctx (entriesOf st name) = some i →
      (∃ t, (entriesOf st name)[i]? = some t ∧ t.1 = cb ∧ t.2 = ctx ∧
        ∀ j, j < i → ∀ u, (entriesOf st name)[j]? = some u →
          ¬(u.1 = cb ∧ u.2 = ctx)) ∧
      entriesOf (off st name cb ctx) name = spliceOne (entriesOf st name) i ∧
      ∀ n', n' ≠ name → entriesOf (off st name cb ctx) n' = entriesOf st n') ∧
    (countMatch cb ctx (entriesOf st name) = 1 →
      off (off st name cb ctx) name cb ctx = off st name cb ctx) := by
  have hg := reachable_regGood env st h
  refine ⟨off_no_match st name cb ctx, ?_, ?_⟩
  · intro i hfind
    obtain ⟨⟨t, ht, ht1, ht2⟩, hfirst⟩ :=
      findMatchIdx_some_spec cb ctx (entriesOf st name) i hfind
    obtain ⟨h1, h2⟩ := off_match_entries st name cb ctx i hg hfind
    exact ⟨⟨t, ht, ht1, ht2, hfirst⟩, h1, h2⟩
  · intro hcount
    cases hf : findMatchIdx cb ctx (entriesOf st name) with
    | none =>
      have hc := (countMatch_zero_iff cb ctx (entriesOf st name)).mpr hf
      omega
    | some i =>
      obtain ⟨h1, _⟩ := off_match_entries st name cb ctx i hg hf
      have hc0 : countMatch cb ctx (entriesOf (off st name cb ctx) name) = 0 := by
        rw [h1]
        have := countMatch_spliceOne cb ctx (entriesOf st name) i hf
        omega
      exact off_no_match _ name cb ctx ((countMatch_zero_iff _ _ _).mp hc0)

/-- Witness for `off_removes_first_match_or_noop`: one registered entry, then
one `off` removes it and the second identical `off` is a no-op. -/
theorem off_removes_first_match_or_noop_witness :
    countMatch (Val.fnV 0) Val.undef
        (entriesOf (onE freshState "a" (Val.fnV 0) Val.undef).2 "a") = 1 ∧
    off (off (onE freshState "a" (Val.fnV 0) Val.undef).2 "a" (Val.fnV 0) Val.undef)
        "a" (Val.fnV 0) Val.undef
      = off (onE freshState "a" (Val.fnV 0) Val.undef).2 "a" (Val.fnV 0) Val.undef :=
  ⟨by decide,
   (off_removes_first_match_or_noop envEmpty (onE freshState "a" (Val.fnV 0) Val.undef).2
      (Reachable.stepOn freshState "a" (Val.fnV 0) Val.undef Reachable.init)
      "a" (Val.fnV 0) Val.undef).2.2 (by decide)⟩

end Eventful
